import Mathlib

/-!
Verification of the core comparison engine of `ddrconfcmp.c` (ddrconf-helper-tools).

The C file compares two register-configuration arrays.  The functions embedded
here are, with their source locations:

* `count_common_ddrc`      — ddrconfcmp.c:393-418
* `extract_common_ddrc`    — ddrconfcmp.c:423-445
* `find_duplicates_ddrc`   — ddrconfcmp.c:651-684
* `find_duplicates_ddrphy` — ddrconfcmp.c:695-728 (textually identical to the
  ddrc variant; only the machine width of `val` differs, and both widths embed
  as `Nat`)
* `compare_ddrc_cfg_arrays`— ddrconfcmp.c:914-1265, with the bounded-lookahead
  cursor scan of its reorder branch (lines 1100-1131) embedded separately as
  `scan_left` / `scan_right` / `block_scan`.

All `printf`-only code is omitted: it writes to stdout and has no effect on any
return value or out-parameter.  Machine integers are embedded as `Nat`; the
engine only ever compares them for equality, so no overflow arithmetic occurs.
-/

set_option maxHeartbeats 1000000

namespace DdrConf

/-- One controller register record, `struct ddrc_cfg_param { unsigned int reg;
unsigned int val; }` (ddr.h:26-30). -/
structure ddrc_cfg_param where
  reg : Nat
  val : Nat
deriving DecidableEq, Repr

/-- The key (register address) sequence of a configuration array. -/
def regs (cfg : List ddrc_cfg_param) : List Nat := cfg.map ddrc_cfg_param.reg

/-- The inner membership search loop used throughout the C file:
`for (j ...) if (a[i].reg == b[j].reg) { found = 1; break; }`. -/
def regMem (r : Nat) (cfg : List ddrc_cfg_param) : Bool :=
  cfg.any (fun s => s.reg == r)

/-- `count_common_ddrc` (ddrconfcmp.c:393-418): for each side, the number of
records whose register address occurs on the other side.  The C function
returns 0 when the two counts agree and -1 otherwise; that comparison is done
at the call site here. -/
def count_common_ddrc (cfg1 cfg2 : List ddrc_cfg_param) : Nat × Nat :=
  ((cfg1.filter (fun r => regMem r.reg cfg2)).length,
   (cfg2.filter (fun r => regMem r.reg cfg1)).length)

/-- `extract_common_ddrc` (ddrconfcmp.c:423-445): the two common-register
sublists, each preserving its own side's order. -/
def extract_common_ddrc (cfg1 cfg2 : List ddrc_cfg_param) :
    List ddrc_cfg_param × List ddrc_cfg_param :=
  (cfg1.filter (fun r => regMem r.reg cfg2),
   cfg2.filter (fun r => regMem r.reg cfg1))

/-- The same-order check of `compare_ddrc_cfg_arrays` (ddrconfcmp.c:990-995):
registers at every index agree positionally. -/
def sameOrderChk (cfg1 cfg2 : List ddrc_cfg_param) : Bool :=
  (List.range cfg1.length).all (fun i =>
    (cfg1.getD i ⟨0, 0⟩).reg == (cfg2.getD i ⟨0, 0⟩).reg)

/-- The same-order diff counter (ddrconfcmp.c:999-1003): number of indices
whose values differ. -/
def diffCountSameOrder (cfg1 cfg2 : List ddrc_cfg_param) : Nat :=
  (List.range cfg1.length).countP (fun i =>
    !((cfg1.getD i ⟨0, 0⟩).val == (cfg2.getD i ⟨0, 0⟩).val))

/-- The all-present check of the different-order branch
(ddrconfcmp.c:1024-1064): every left register occurs in the right array and
vice versa. -/
def allPresentChk (cfg1 cfg2 : List ddrc_cfg_param) : Bool :=
  cfg1.all (fun r => regMem r.reg cfg2) && cfg2.all (fun r => regMem r.reg cfg1)

/-- The reordered diff counter (ddrconfcmp.c:1227-1239): for each left record,
find the first right record with the same register and count a difference when
the values disagree. -/
def diffCountReordered (cfg1 cfg2 : List ddrc_cfg_param) : Nat :=
  cfg1.countP (fun r =>
    match cfg2.find? (fun s => s.reg == r.reg) with
    | some s => !(s.val == r.val)
    | none => false)

/-- `compare_ddrc_cfg_arrays` (ddrconfcmp.c:914-1265).  `alloc` models whether
the `malloc` pair for the common-register arrays succeeds.  The result is the
C return value (-1 structural error, 0 same order, 1 different order) paired
with the value written through `diff_count_p` (`none` when the call returns
without writing it; in the recursive branch the pointer is passed through, so
the parent's written value is the recursive call's). -/
def compare_ddrc_cfg_arrays (alloc : Bool) (cfg1 cfg2 : List ddrc_cfg_param) :
    Int × Option Nat :=
  if _hne : cfg1.length ≠ cfg2.length then
    if _hcc : (count_common_ddrc cfg1 cfg2).1 ≠ (count_common_ddrc cfg1 cfg2).2 then
      (-1, none)
    else if _h0 : 0 < (count_common_ddrc cfg1 cfg2).1 then
      if alloc then
        (-1, (compare_ddrc_cfg_arrays alloc
                (extract_common_ddrc cfg1 cfg2).1 (extract_common_ddrc cfg1 cfg2).2).2)
      else
        (-1, none)
    else
      (-1, none)
  else
    if sameOrderChk cfg1 cfg2 then
      (0, some (diffCountSameOrder cfg1 cfg2))
    else if allPresentChk cfg1 cfg2 then
      (1, some (diffCountReordered cfg1 cfg2))
    else
      (-1, none)
termination_by cfg1.length + cfg2.length
decreasing_by
  simp only [count_common_ddrc, extract_common_ddrc] at *
  have h1 := List.length_filter_le (fun r => regMem r.reg cfg2) cfg1
  have h2 := List.length_filter_le (fun r => regMem r.reg cfg1) cfg2
  omega

/-- One duplicate-group record, `struct duplicate_info` (ddrconfcmp.c:635-640).
The C struct stores parallel arrays `indices[64]` / `values[64]` with a
`count`; here the pairs are kept as one list. -/
structure duplicate_info where
  reg : Nat
  occs : List (Nat × Nat)
deriving DecidableEq, Repr

/-- The inner collection loop of `find_duplicates_ddrc`
(ddrconfcmp.c:668-675): starting at index `j`, append to `occs` (and to the
newly-processed index list `proc`) every later index whose register equals
`r0`, while the group holds fewer than 64 entries. -/
def grpScan (cfg : List ddrc_cfg_param) (r0 num : Nat) :
    Nat → List (Nat × Nat) → List Nat → List (Nat × Nat) × List Nat
  | j, occs, proc =>
    if _h : j < num then
      if (cfg.getD j ⟨0, 0⟩).reg == r0 && occs.length < 64 then
        grpScan cfg r0 num (j + 1)
          (occs ++ [(j, (cfg.getD j ⟨0, 0⟩).val)]) (proc ++ [j])
      else
        grpScan cfg r0 num (j + 1) occs proc
    else
      (occs, proc)
termination_by j => num - j

/-- The outer loop of `find_duplicates_ddrc` (ddrconfcmp.c:660-680): visit
each not-yet-processed index while fewer than `maxDups` groups were recorded,
collect the group rooted there, and keep it only when it holds more than one
occurrence. -/
def dupLoop (cfg : List ddrc_cfg_param) (num maxDups : Nat) :
    Nat → List Nat → List duplicate_info → List duplicate_info
  | i, processed, dups =>
    if _h : i < num ∧ dups.length < maxDups then
      if processed.contains i then
        dupLoop cfg num maxDups (i + 1) processed dups
      else
        let c := cfg.getD i ⟨0, 0⟩
        let sg := grpScan cfg c.reg num (i + 1) [(i, c.val)] []
        dupLoop cfg num maxDups (i + 1) (processed ++ sg.2)
          (if 1 < sg.1.length then dups ++ [⟨c.reg, sg.1⟩] else dups)
    else
      dups
termination_by i => num - i

/-- `find_duplicates_ddrc` (ddrconfcmp.c:651-684).  `alloc` models whether the
`calloc` of the processed-flags scratch array succeeds; on failure the C
function returns 0 groups. -/
def find_duplicates_ddrc (alloc : Bool) (cfg : List ddrc_cfg_param)
    (maxDups : Nat) : List duplicate_info :=
  if alloc then dupLoop cfg cfg.length maxDups 0 [] [] else []

/-- `find_duplicates_ddrphy` (ddrconfcmp.c:695-728): textually identical to
`find_duplicates_ddrc`; the only difference in the C source is the record
type's value width (`unsigned short` instead of `unsigned int`), and both
widths embed as `Nat`. -/
def find_duplicates_ddrphy (alloc : Bool) (cfg : List ddrc_cfg_param)
    (maxDups : Nat) : List duplicate_info :=
  find_duplicates_ddrc alloc cfg maxDups

/-- The bounded-lookahead membership test of the left-cursor scan
(ddrconfcmp.c:1107-1112): does the left key at `i1` occur among the right
records at indices `[i2, i2+50)` that are in range. -/
def found_soon_left (cfg1 cfg2 : List ddrc_cfg_param) (i1 i2 : Nat) : Bool :=
  (List.range' i2 50).any (fun j =>
    decide (j < cfg2.length) && ((cfg1.getD i1 ⟨0, 0⟩).reg == (cfg2.getD j ⟨0, 0⟩).reg))

/-- The bounded-lookahead membership test of the right-cursor scan
(ddrconfcmp.c:1122-1128): does the right key at `i2` occur among the left
records at indices `[i1, i1+50)` that are in range. -/
def found_soon_right (cfg1 cfg2 : List ddrc_cfg_param) (i1 i2 : Nat) : Bool :=
  (List.range' i1 50).any (fun j =>
    decide (j < cfg1.length) && ((cfg2.getD i2 ⟨0, 0⟩).reg == (cfg1.getD j ⟨0, 0⟩).reg))

/-- The left-cursor extension loop on a mismatch (ddrconfcmp.c:1104-1115):
advance `i1` while its key is not found within the lookahead window ahead of
`i2`. -/
def scan_left (cfg1 cfg2 : List ddrc_cfg_param) (i2 : Nat) : Nat → Nat
  | i1 =>
    if _h : i1 < cfg1.length then
      if found_soon_left cfg1 cfg2 i1 i2 then i1
      else scan_left cfg1 cfg2 i2 (i1 + 1)
    else i1
termination_by i1 => cfg1.length - i1

/-- The right-cursor extension loop on a mismatch (ddrconfcmp.c:1120-1131):
advance `i2` while its key is not found within the lookahead window ahead of
the (already updated) left cursor `i1`. -/
def scan_right (cfg1 cfg2 : List ddrc_cfg_param) (i1 : Nat) : Nat → Nat
  | i2 =>
    if _h : i2 < cfg2.length then
      if found_soon_right cfg1 cfg2 i1 i2 then i2
      else scan_right cfg1 cfg2 i1 (i2 + 1)
    else i2
termination_by i2 => cfg2.length - i2

/-- The mismatch branch of the block-relocation pass (ddrconfcmp.c:1099-1131):
extend the left cursor first, then the right cursor against the updated left
cursor. -/
def block_scan (cfg1 cfg2 : List ddrc_cfg_param) (i1 i2 : Nat) : Nat × Nat :=
  (scan_left cfg1 cfg2 i2 i1, scan_right cfg1 cfg2 (scan_left cfg1 cfg2 i2 i1) i2)

/-- Specification-side reading of the inner collection loop: the indices at
or after `j` (and below `num`) whose register equals `r0`, in increasing
order. -/
def keyIdxFrom (cfg : List ddrc_cfg_param) (r0 num : Nat) : Nat → List Nat
  | j =>
    if _h : j < num then
      if (cfg.getD j ⟨0, 0⟩).reg == r0 then j :: keyIdxFrom cfg r0 num (j + 1)
      else keyIdxFrom cfg r0 num (j + 1)
    else []
termination_by j => num - j

/-- All occurrence indices of register `r0` in `cfg`, in list order. -/
def keyIdx (cfg : List ddrc_cfg_param) (r0 : Nat) : List Nat :=
  keyIdxFrom cfg r0 cfg.length 0

/-- Multiplicity of register `r0` in `cfg`. -/
def multOf (cfg : List ddrc_cfg_param) (r0 : Nat) : Nat := (keyIdx cfg r0).length

/-- The (index, value) pairs of every occurrence of `r0`, in list order —
what one duplicate group is expected to hold. -/
def keyOccs (cfg : List ddrc_cfg_param) (r0 : Nat) : List (Nat × Nat) :=
  (keyIdx cfg r0).map (fun t => (t, (cfg.getD t ⟨0, 0⟩).val))

/-- Index `i` is the first occurrence of its own register. -/
def isFirstOcc (cfg : List ddrc_cfg_param) (i : Nat) : Bool :=
  (List.range i).all (fun t =>
    !((cfg.getD t ⟨0, 0⟩).reg == (cfg.getD i ⟨0, 0⟩).reg))

/-- First-occurrence indices, below `n`, of registers with multiplicity at
least 2 — the roots of the duplicate groups, in first-occurrence order. -/
def repIdxBelow (cfg : List ddrc_cfg_param) (n : Nat) : List Nat :=
  (List.range n).filter (fun i =>
    isFirstOcc cfg i && decide (2 ≤ multOf cfg ((cfg.getD i ⟨0, 0⟩).reg)))

/-- All duplicate-group root indices. -/
def repIdx (cfg : List ddrc_cfg_param) : List Nat := repIdxBelow cfg cfg.length

/-- The duplicate-group sequence the spec describes: one group per repeated
register, rooted at its first occurrence, holding every occurrence. -/
def specDups (cfg : List ddrc_cfg_param) : List duplicate_info :=
  (repIdx cfg).map (fun i =>
    ⟨(cfg.getD i ⟨0, 0⟩).reg, keyOccs cfg ((cfg.getD i ⟨0, 0⟩).reg)⟩)

/-- Specification-side reading of the left lookahead test: the left key at
index `t` occurs among the (at most) 50 right-list elements starting at the
right cursor `i2`. -/
def inWindowRight (cfg1 cfg2 : List ddrc_cfg_param) (t i2 : Nat) : Prop :=
  ∃ j, i2 ≤ j ∧ j < i2 + 50 ∧ j < cfg2.length ∧
    (cfg2.getD j ⟨0, 0⟩).reg = (cfg1.getD t ⟨0, 0⟩).reg

/-- Specification-side reading of the right lookahead test: the right key at
index `t` occurs among the (at most) 50 left-list elements starting at the
left cursor `i1`. -/
def inWindowLeft (cfg1 cfg2 : List ddrc_cfg_param) (t i1 : Nat) : Prop :=
  ∃ j, i1 ≤ j ∧ j < i1 + 50 ∧ j < cfg1.length ∧
    (cfg1.getD j ⟨0, 0⟩).reg = (cfg2.getD t ⟨0, 0⟩).reg

/-- The left-unique counter of `find_and_display_unique_ddrc`
(ddrconfcmp.c:310-319): number of left records whose register does not occur
on the right. -/
def count_unique_left (cfg1 cfg2 : List ddrc_cfg_param) : Nat :=
  (cfg1.filter (fun r => !(regMem r.reg cfg2))).length

/-- The right-unique counter of `find_and_display_unique_ddrc`
(ddrconfcmp.c:321-330): number of right records whose register does not occur
on the left. -/
def count_unique_right (cfg1 cfg2 : List ddrc_cfg_param) : Nat :=
  (cfg2.filter (fun r => !(regMem r.reg cfg1))).length

/-- First right-list value found for key `k`, used to state value-difference
properties key-wise. -/
def keyVal (k : Nat) (cfg : List ddrc_cfg_param) : Option Nat :=
  (cfg.find? (fun r => r.reg == k)).map ddrc_cfg_param.val

/-- Number of distinct keys of the left list whose (first-occurrence) values
differ between the two sides — the quantity the spec calls "number of keys
whose values differ". -/
def distinctDiffKeyCount (cfg1 cfg2 : List ddrc_cfg_param) : Nat :=
  ((regs cfg1).dedup).countP (fun k => decide (keyVal k cfg1 ≠ keyVal k cfg2))

/-! ## Branch characterizations of the comparator -/

theorem compare_branch_struct (a : Bool) (cfg1 cfg2 : List ddrc_cfg_param)
    (h : cfg1.length ≠ cfg2.length) :
    (compare_ddrc_cfg_arrays a cfg1 cfg2).1 = -1 := by
  rw [compare_ddrc_cfg_arrays, dif_pos h]
  split
  · rfl
  · split
    · split <;> rfl
    · rfl

theorem compare_branch_same_order (a : Bool) (cfg1 cfg2 : List ddrc_cfg_param)
    (hlen : cfg1.length = cfg2.length) (hso : sameOrderChk cfg1 cfg2 = true) :
    compare_ddrc_cfg_arrays a cfg1 cfg2 = (0, some (diffCountSameOrder cfg1 cfg2)) := by
  rw [compare_ddrc_cfg_arrays, dif_neg (not_not_intro hlen), if_pos hso]

theorem compare_branch_reordered (a : Bool) (cfg1 cfg2 : List ddrc_cfg_param)
    (hlen : cfg1.length = cfg2.length) (hso : sameOrderChk cfg1 cfg2 = false)
    (hap : allPresentChk cfg1 cfg2 = true) :
    compare_ddrc_cfg_arrays a cfg1 cfg2 = (1, some (diffCountReordered cfg1 cfg2)) := by
  rw [compare_ddrc_cfg_arrays, dif_neg (not_not_intro hlen),
    if_neg (by simp [hso]), if_pos hap]

theorem compare_branch_missing (a : Bool) (cfg1 cfg2 : List ddrc_cfg_param)
    (hlen : cfg1.length = cfg2.length) (hso : sameOrderChk cfg1 cfg2 = false)
    (hap : allPresentChk cfg1 cfg2 = false) :
    compare_ddrc_cfg_arrays a cfg1 cfg2 = (-1, none) := by
  rw [compare_ddrc_cfg_arrays, dif_neg (not_not_intro hlen),
    if_neg (by simp [hso]), if_neg (by simp [hap])]

theorem compare_result_zero_inv (a : Bool) (cfg1 cfg2 : List ddrc_cfg_param)
    (h : (compare_ddrc_cfg_arrays a cfg1 cfg2).1 = 0) :
    cfg1.length = cfg2.length ∧ sameOrderChk cfg1 cfg2 = true := by
  by_cases hlen : cfg1.length = cfg2.length
  · refine ⟨hlen, ?_⟩
    by_cases hso : sameOrderChk cfg1 cfg2 = true
    · exact hso
    · rw [Bool.not_eq_true] at hso
      by_cases hap : allPresentChk cfg1 cfg2 = true
      · rw [compare_branch_reordered a cfg1 cfg2 hlen hso hap] at h
        simp at h
      · rw [Bool.not_eq_true] at hap
        rw [compare_branch_missing a cfg1 cfg2 hlen hso hap] at h
        simp at h
  · rw [compare_branch_struct a cfg1 cfg2 hlen] at h
    simp at h

theorem compare_result_one_inv (a : Bool) (cfg1 cfg2 : List ddrc_cfg_param)
    (h : (compare_ddrc_cfg_arrays a cfg1 cfg2).1 = 1) :
    cfg1.length = cfg2.length ∧ sameOrderChk cfg1 cfg2 = false ∧
      allPresentChk cfg1 cfg2 = true := by
  by_cases hlen : cfg1.length = cfg2.length
  · by_cases hso : sameOrderChk cfg1 cfg2 = true
    · rw [compare_branch_same_order a cfg1 cfg2 hlen hso] at h
      simp at h
    · rw [Bool.not_eq_true] at hso
      by_cases hap : allPresentChk cfg1 cfg2 = true
      · exact ⟨hlen, hso, hap⟩
      · rw [Bool.not_eq_true] at hap
        rw [compare_branch_missing a cfg1 cfg2 hlen hso hap] at h
        simp at h
  · rw [compare_branch_struct a cfg1 cfg2 hlen] at h
    simp at h

/-! ## Easy consequences -/

theorem sameOrderChk_self (cfg : List ddrc_cfg_param) : sameOrderChk cfg cfg = true := by
  simp [sameOrderChk]

theorem diffCountSameOrder_self (cfg : List ddrc_cfg_param) :
    diffCountSameOrder cfg cfg = 0 := by
  simp [diffCountSameOrder, List.countP_eq_length_filter]

theorem regMem_iff (r : Nat) (cfg : List ddrc_cfg_param) :
    regMem r cfg = true ↔ r ∈ regs cfg := by
  rw [regMem, List.any_eq_true]
  constructor
  · rintro ⟨s, hs, hb⟩
    exact List.mem_map.mpr ⟨s, hs, beq_iff_eq.mp hb⟩
  · intro h
    obtain ⟨s, hs, he⟩ := List.mem_map.mp h
    exact ⟨s, hs, by simp [he]⟩

theorem countP_regs (cfg : List ddrc_cfg_param) (q : Nat → Bool) :
    (regs cfg).countP q = cfg.countP (fun r => q r.reg) := by
  rw [regs, List.countP_map]
  rfl

/-- For two duplicate-free lists the membership-filter counts agree in both
directions: each equals the cardinality of the intersection of the key sets. -/
theorem nodup_filter_mem_length_comm (a b : List Nat) (ha : a.Nodup) (hb : b.Nodup) :
    (a.filter (fun k => decide (k ∈ b))).length
      = (b.filter (fun k => decide (k ∈ a))).length := by
  have key : ∀ (x y : List Nat), x.Nodup → (x.filter (fun k => decide (k ∈ y))).length
      = (x.toFinset ∩ y.toFinset).card := by
    intro x y hx
    rw [← Finset.filter_mem_eq_inter]
    rw [← List.toFinset_card_of_nodup (hx.filter _), List.toFinset_filter]
    congr 1
    apply Finset.filter_congr
    intro k _
    simp [List.mem_toFinset]
  rw [key a b ha, key b a hb, Finset.inter_comm]

/-! ## Claim theorems (easy group) -/

/-- C9: comparing any register list against itself returns 0
(`IdenticalOrder`) and writes a diff count of 0. -/
theorem C9_compare_self_identical (a : Bool) (cfg : List ddrc_cfg_param) :
    compare_ddrc_cfg_arrays a cfg cfg = (0, some 0) := by
  rw [compare_branch_same_order a cfg cfg rfl (sameOrderChk_self cfg),
    diffCountSameOrder_self]

/-- C2: on the length-mismatch path of `compare_ddrc_cfg_arrays` the parent
call is meant always to return -1; but on this concrete input the parent
(lengths 3 vs 2, common counts 2 = 2 > 0, allocation succeeding) recurses into
the common sublists `[1,2]` / `[2,1]`, which take the reordered branch, and
there the block-display loop makes no progress from cursors (0,0): both
mismatched keys lie within the other side's 50-element lookahead window, so
neither cursor moves and the C `while` loop at ddrconfcmp.c:1078 repeats the
identical state forever — the parent call never returns at all. -/
theorem C2_recursion_divergence :
    ([⟨1, 0⟩, ⟨2, 0⟩, ⟨3, 0⟩] : List ddrc_cfg_param).length ≠
        ([⟨2, 0⟩, ⟨1, 0⟩] : List ddrc_cfg_param).length ∧
    count_common_ddrc [⟨1, 0⟩, ⟨2, 0⟩, ⟨3, 0⟩] [⟨2, 0⟩, ⟨1, 0⟩] = (2, 2) ∧
    extract_common_ddrc [⟨1, 0⟩, ⟨2, 0⟩, ⟨3, 0⟩] [⟨2, 0⟩, ⟨1, 0⟩]
      = ([⟨1, 0⟩, ⟨2, 0⟩], [⟨2, 0⟩, ⟨1, 0⟩]) ∧
    sameOrderChk [⟨1, 0⟩, ⟨2, 0⟩] [⟨2, 0⟩, ⟨1, 0⟩] = false ∧
    allPresentChk [⟨1, 0⟩, ⟨2, 0⟩] [⟨2, 0⟩, ⟨1, 0⟩] = true ∧
    (([⟨1, 0⟩, ⟨2, 0⟩] : List ddrc_cfg_param).getD 0 ⟨0, 0⟩).reg ≠
        (([⟨2, 0⟩, ⟨1, 0⟩] : List ddrc_cfg_param).getD 0 ⟨0, 0⟩).reg ∧
    block_scan [⟨1, 0⟩, ⟨2, 0⟩] [⟨2, 0⟩, ⟨1, 0⟩] 0 0 = (0, 0) := by
  refine ⟨by decide, by decide, by decide, by decide, by decide, by decide, ?_⟩
  have h1 : found_soon_left [⟨1, 0⟩, ⟨2, 0⟩] [⟨2, 0⟩, ⟨1, 0⟩] 0 0 = true := by decide
  have h2 : found_soon_right [⟨1, 0⟩, ⟨2, 0⟩] [⟨2, 0⟩, ⟨1, 0⟩] 0 0 = true := by decide
  have hs1 : scan_left [⟨1, 0⟩, ⟨2, 0⟩] [⟨2, 0⟩, ⟨1, 0⟩] 0 0 = 0 := by
    rw [scan_left]; simp [h1]
  have hs2 : scan_right [⟨1, 0⟩, ⟨2, 0⟩] [⟨2, 0⟩, ⟨1, 0⟩] 0 0 = 0 := by
    rw [scan_right]; simp [h2]
  simp [block_scan, hs1, hs2]

/-- C6 counterexample: when the two common-subset counts disagree (left
`[0,0]`, right `[0,1,2]`: counts 2 vs 1) the comparator returns -1, exactly
the value returned for an ordinary structural mismatch (left `[0]`, right
`[1,2]`: no common registers) — so the outcome returned to the caller is NOT
distinct, contrary to the claim. -/
theorem C6_counterexample :
    ([⟨0, 0⟩, ⟨0, 0⟩] : List ddrc_cfg_param).length ≠
        ([⟨0, 0⟩, ⟨1, 0⟩, ⟨2, 0⟩] : List ddrc_cfg_param).length ∧
    (count_common_ddrc [⟨0, 0⟩, ⟨0, 0⟩] [⟨0, 0⟩, ⟨1, 0⟩, ⟨2, 0⟩]).1 ≠
        (count_common_ddrc [⟨0, 0⟩, ⟨0, 0⟩] [⟨0, 0⟩, ⟨1, 0⟩, ⟨2, 0⟩]).2 ∧
    compare_ddrc_cfg_arrays true [⟨0, 0⟩, ⟨0, 0⟩] [⟨0, 0⟩, ⟨1, 0⟩, ⟨2, 0⟩]
      = (-1, none) ∧
    ([⟨0, 0⟩] : List ddrc_cfg_param).length ≠
        ([⟨1, 0⟩, ⟨2, 0⟩] : List ddrc_cfg_param).length ∧
    count_common_ddrc [⟨0, 0⟩] [⟨1, 0⟩, ⟨2, 0⟩] = (0, 0) ∧
    compare_ddrc_cfg_arrays true [⟨0, 0⟩] [⟨1, 0⟩, ⟨2, 0⟩] = (-1, none) := by
  refine ⟨by decide, by decide, ?_, by decide, by decide, ?_⟩
  · rw [compare_ddrc_cfg_arrays]; decide
  · rw [compare_ddrc_cfg_arrays]; decide

/-- C6 amended: when the common-subset counts computed from the two sides
disagree, the comparator prints an internal-error diagnostic but returns -1
with the diff-count pointer untouched — the same returned outcome as an
ordinary structural mismatch; the distinction exists only in the printed
output, never in the value returned to the caller. -/
theorem C6_amended_internal_error_returns_minus_one (a : Bool)
    (cfg1 cfg2 : List ddrc_cfg_param) (hne : cfg1.length ≠ cfg2.length)
    (hcc : (count_common_ddrc cfg1 cfg2).1 ≠ (count_common_ddrc cfg1 cfg2).2) :
    compare_ddrc_cfg_arrays a cfg1 cfg2 = (-1, none) := by
  rw [compare_ddrc_cfg_arrays, dif_pos hne, dif_pos hcc]

/-- C6 witness: the amended theorem applied to the concrete count-mismatch
input. -/
theorem C6_amended_witness :
    compare_ddrc_cfg_arrays true [⟨0, 0⟩, ⟨0, 0⟩] [⟨0, 0⟩, ⟨1, 0⟩, ⟨2, 0⟩]
      = (-1, none) :=
  C6_amended_internal_error_returns_minus_one true _ _ (by decide) (by decide)

/-- C3 counterexample: with a duplicated key on the left (left `[0,0]`, right
`[0,1]`) the two extracted common sublists have lengths 2 and 1 — they are NOT
always of equal length, because the code uses plain membership rather than the
first-unconsumed-match discipline the claim describes. -/
theorem C3_counterexample :
    (extract_common_ddrc [⟨0, 0⟩, ⟨0, 0⟩] [⟨0, 0⟩, ⟨1, 0⟩]).1.length = 2 ∧
    (extract_common_ddrc [⟨0, 0⟩, ⟨0, 0⟩] [⟨0, 0⟩, ⟨1, 0⟩]).2.length = 1 := by
  decide

/-- C3 amended: the partition equations |left-only| + |common-from-left| =
|left| and |right-only| + |common-from-right| = |right| hold for all lists;
the two extracted common sublists have equal length whenever the keys within
each list are pairwise distinct (with duplicated keys present on both sides
the two common counts can disagree, since each occurrence is matched by plain
membership, not first-unconsumed-match). -/
theorem C3_amended_differencer_partition (cfg1 cfg2 : List ddrc_cfg_param) :
    count_unique_left cfg1 cfg2 + (count_common_ddrc cfg1 cfg2).1 = cfg1.length ∧
    count_unique_right cfg1 cfg2 + (count_common_ddrc cfg1 cfg2).2 = cfg2.length ∧
    ((regs cfg1).Nodup → (regs cfg2).Nodup →
      (extract_common_ddrc cfg1 cfg2).1.length
        = (extract_common_ddrc cfg1 cfg2).2.length) := by
  refine ⟨?_, ?_, ?_⟩
  · rw [count_unique_left, count_common_ddrc, Nat.add_comm]
    exact (List.length_eq_length_filter_add (fun r : ddrc_cfg_param => regMem r.reg cfg2)).symm
  · rw [count_unique_right, count_common_ddrc, Nat.add_comm]
    exact (List.length_eq_length_filter_add (fun r : ddrc_cfg_param => regMem r.reg cfg1)).symm
  · intro h1 h2
    have conv1 : (extract_common_ddrc cfg1 cfg2).1.length
        = ((regs cfg1).filter (fun k => decide (k ∈ regs cfg2))).length := by
      rw [extract_common_ddrc, ← List.countP_eq_length_filter,
        ← List.countP_eq_length_filter, countP_regs]
      apply List.countP_congr
      intro r _
      simp only [decide_eq_true_eq]
      exact regMem_iff r.reg cfg2
    have conv2 : (extract_common_ddrc cfg1 cfg2).2.length
        = ((regs cfg2).filter (fun k => decide (k ∈ regs cfg1))).length := by
      rw [extract_common_ddrc, ← List.countP_eq_length_filter,
        ← List.countP_eq_length_filter, countP_regs]
      apply List.countP_congr
      intro r _
      simp only [decide_eq_true_eq]
      exact regMem_iff r.reg cfg1
    rw [conv1, conv2, nodup_filter_mem_length_comm _ _ h1 h2]

/-- C1: for equal-length lists the claim's steps 1 and 2 match the code, but
step 3 does not: on this input (the spec's own reorder example, equal length,
key sets equal, order different) the comparison enters the block-display loop
of the reordered branch at cursors (0,0) with mismatched keys, and one
iteration of its mismatch branch leaves both cursors unchanged — each side's
key is found within the other side's 50-element lookahead window, so neither
cursor scan advances — hence the C `while` loop at ddrconfcmp.c:1078 repeats
the identical state forever and the function never returns `Reordered`. -/
theorem C1_reordered_branch_divergence :
    ([⟨0x10, 1⟩, ⟨0x20, 2⟩, ⟨0x30, 3⟩] : List ddrc_cfg_param).length
      = ([⟨0x20, 2⟩, ⟨0x10, 9⟩, ⟨0x30, 3⟩] : List ddrc_cfg_param).length ∧
    sameOrderChk [⟨0x10, 1⟩, ⟨0x20, 2⟩, ⟨0x30, 3⟩] [⟨0x20, 2⟩, ⟨0x10, 9⟩, ⟨0x30, 3⟩]
      = false ∧
    allPresentChk [⟨0x10, 1⟩, ⟨0x20, 2⟩, ⟨0x30, 3⟩] [⟨0x20, 2⟩, ⟨0x10, 9⟩, ⟨0x30, 3⟩]
      = true ∧
    (([⟨0x10, 1⟩, ⟨0x20, 2⟩, ⟨0x30, 3⟩] : List ddrc_cfg_param).getD 0 ⟨0, 0⟩).reg ≠
      (([⟨0x20, 2⟩, ⟨0x10, 9⟩, ⟨0x30, 3⟩] : List ddrc_cfg_param).getD 0 ⟨0, 0⟩).reg ∧
    block_scan [⟨0x10, 1⟩, ⟨0x20, 2⟩, ⟨0x30, 3⟩] [⟨0x20, 2⟩, ⟨0x10, 9⟩, ⟨0x30, 3⟩] 0 0
      = (0, 0) := by
  refine ⟨by decide, by decide, by decide, by decide, ?_⟩
  have h1 : found_soon_left [⟨0x10, 1⟩, ⟨0x20, 2⟩, ⟨0x30, 3⟩]
      [⟨0x20, 2⟩, ⟨0x10, 9⟩, ⟨0x30, 3⟩] 0 0 = true := by decide
  have h2 : found_soon_right [⟨0x10, 1⟩, ⟨0x20, 2⟩, ⟨0x30, 3⟩]
      [⟨0x20, 2⟩, ⟨0x10, 9⟩, ⟨0x30, 3⟩] 0 0 = true := by decide
  have hs1 : scan_left [⟨0x10, 1⟩, ⟨0x20, 2⟩, ⟨0x30, 3⟩]
      [⟨0x20, 2⟩, ⟨0x10, 9⟩, ⟨0x30, 3⟩] 0 0 = 0 := by
    rw [scan_left]; simp [h1]
  have hs2 : scan_right [⟨0x10, 1⟩, ⟨0x20, 2⟩, ⟨0x30, 3⟩]
      [⟨0x20, 2⟩, ⟨0x10, 9⟩, ⟨0x30, 3⟩] 0 0 = 0 := by
    rw [scan_right]; simp [h2]
  simp [block_scan, hs1, hs2]

/-- C5: the claim predicts outcome `Reordered` for every permutation of a
unique-key list, but on this pure swap permutation (left `[(1,5),(2,6)]`,
right `[(2,6),(1,5)]`, keys distinct, key multiset unchanged, no value
changed) the comparison enters the block-display loop of the reordered branch
and stalls: from cursors (0,0) with mismatched keys, one iteration of the
mismatch branch moves neither cursor (each key is found within the other
side's 50-element lookahead window), so the C `while` loop at
ddrconfcmp.c:1078 never terminates and no outcome is ever returned.  (For the
identity permutation the claim also fails for a different reason: the
comparator returns 0, `IdenticalOrder`, not 1.) -/
theorem C5_permutation_divergence :
    (regs [⟨2, 6⟩, ⟨1, 5⟩]).Perm (regs [⟨1, 5⟩, ⟨2, 6⟩]) ∧
    (regs [⟨1, 5⟩, ⟨2, 6⟩]).Nodup ∧
    sameOrderChk [⟨1, 5⟩, ⟨2, 6⟩] [⟨2, 6⟩, ⟨1, 5⟩] = false ∧
    allPresentChk [⟨1, 5⟩, ⟨2, 6⟩] [⟨2, 6⟩, ⟨1, 5⟩] = true ∧
    (([⟨1, 5⟩, ⟨2, 6⟩] : List ddrc_cfg_param).getD 0 ⟨0, 0⟩).reg ≠
      (([⟨2, 6⟩, ⟨1, 5⟩] : List ddrc_cfg_param).getD 0 ⟨0, 0⟩).reg ∧
    block_scan [⟨1, 5⟩, ⟨2, 6⟩] [⟨2, 6⟩, ⟨1, 5⟩] 0 0 = (0, 0) ∧
    compare_ddrc_cfg_arrays true [⟨1, 5⟩, ⟨2, 6⟩] [⟨1, 5⟩, ⟨2, 6⟩] = (0, some 0) := by
  refine ⟨?_, by decide, by decide, by decide, by decide, ?_, ?_⟩
  · simpa [regs] using List.Perm.swap 1 2 ([] : List Nat)
  · have h1 : found_soon_left [⟨1, 5⟩, ⟨2, 6⟩] [⟨2, 6⟩, ⟨1, 5⟩] 0 0 = true := by decide
    have h2 : found_soon_right [⟨1, 5⟩, ⟨2, 6⟩] [⟨2, 6⟩, ⟨1, 5⟩] 0 0 = true := by decide
    have hs1 : scan_left [⟨1, 5⟩, ⟨2, 6⟩] [⟨2, 6⟩, ⟨1, 5⟩] 0 0 = 0 := by
      rw [scan_left]; simp [h1]
    have hs2 : scan_right [⟨1, 5⟩, ⟨2, 6⟩] [⟨2, 6⟩, ⟨1, 5⟩] 0 0 = 0 := by
      rw [scan_right]; simp [h2]
    simp [block_scan, hs1, hs2]
  · rw [compare_branch_same_order true _ _ rfl (sameOrderChk_self _),
      diffCountSameOrder_self]

theorem found_soon_left_iff (cfg1 cfg2 : List ddrc_cfg_param) (t i2 : Nat) :
    found_soon_left cfg1 cfg2 t i2 = true ↔ inWindowRight cfg1 cfg2 t i2 := by
  rw [found_soon_left, List.any_eq_true, inWindowRight]
  constructor
  · rintro ⟨j, hj, hb⟩
    rw [List.mem_range'_1] at hj
    rw [Bool.and_eq_true, decide_eq_true_eq, beq_iff_eq] at hb
    exact ⟨j, hj.1, hj.2, hb.1, hb.2.symm⟩
  · rintro ⟨j, h1, h2, h3, h4⟩
    refine ⟨j, List.mem_range'_1.mpr ⟨h1, h2⟩, ?_⟩
    rw [Bool.and_eq_true, decide_eq_true_eq, beq_iff_eq]
    exact ⟨h3, h4.symm⟩

theorem found_soon_right_iff (cfg1 cfg2 : List ddrc_cfg_param) (i1 t : Nat) :
    found_soon_right cfg1 cfg2 i1 t = true ↔ inWindowLeft cfg1 cfg2 t i1 := by
  rw [found_soon_right, List.any_eq_true, inWindowLeft]
  constructor
  · rintro ⟨j, hj, hb⟩
    rw [List.mem_range'_1] at hj
    rw [Bool.and_eq_true, decide_eq_true_eq, beq_iff_eq] at hb
    exact ⟨j, hj.1, hj.2, hb.1, hb.2.symm⟩
  · rintro ⟨j, h1, h2, h3, h4⟩
    refine ⟨j, List.mem_range'_1.mpr ⟨h1, h2⟩, ?_⟩
    rw [Bool.and_eq_true, decide_eq_true_eq, beq_iff_eq]
    exact ⟨h3, h4.symm⟩

theorem scan_left_spec_aux (cfg1 cfg2 : List ddrc_cfg_param) (i2 : Nat) :
    ∀ n i1, cfg1.length - i1 ≤ n → i1 ≤ cfg1.length →
      i1 ≤ scan_left cfg1 cfg2 i2 i1 ∧
      scan_left cfg1 cfg2 i2 i1 ≤ cfg1.length ∧
      (∀ t, i1 ≤ t → t < scan_left cfg1 cfg2 i2 i1 →
        found_soon_left cfg1 cfg2 t i2 = false) ∧
      (scan_left cfg1 cfg2 i2 i1 < cfg1.length →
        found_soon_left cfg1 cfg2 (scan_left cfg1 cfg2 i2 i1) i2 = true) := by
  intro n
  induction n with
  | zero =>
    intro i1 hn hle
    have hi : ¬ i1 < cfg1.length := by omega
    rw [scan_left, dif_neg hi]
    exact ⟨le_refl _, hle, fun t h1 h2 => absurd (lt_of_le_of_lt h1 h2) (lt_irrefl _),
      fun h => absurd h hi⟩
  | succ n ih =>
    intro i1 hn hle
    by_cases hi : i1 < cfg1.length
    · by_cases hf : found_soon_left cfg1 cfg2 i1 i2 = true
      · rw [scan_left, dif_pos hi, if_pos hf]
        exact ⟨le_refl _, hle, fun t h1 h2 => absurd (lt_of_le_of_lt h1 h2) (lt_irrefl _),
          fun _ => hf⟩
      · rw [Bool.not_eq_true] at hf
        have hrec := ih (i1 + 1) (by omega) (by omega)
        rw [scan_left, dif_pos hi, if_neg (by simp [hf])]
        refine ⟨by omega, hrec.2.1, ?_, hrec.2.2.2⟩
        intro t h1 h2
        rcases Nat.eq_or_lt_of_le h1 with he | hlt
        · rw [← he]; exact hf
        · exact hrec.2.2.1 t hlt h2
    · rw [scan_left, dif_neg hi]
      exact ⟨le_refl _, hle, fun t h1 h2 => absurd (lt_of_le_of_lt h1 h2) (lt_irrefl _),
        fun h => absurd h hi⟩

theorem scan_right_spec_aux (cfg1 cfg2 : List ddrc_cfg_param) (i1 : Nat) :
    ∀ n i2, cfg2.length - i2 ≤ n → i2 ≤ cfg2.length →
      i2 ≤ scan_right cfg1 cfg2 i1 i2 ∧
      scan_right cfg1 cfg2 i1 i2 ≤ cfg2.length ∧
      (∀ t, i2 ≤ t → t < scan_right cfg1 cfg2 i1 i2 →
        found_soon_right cfg1 cfg2 i1 t = false) ∧
      (scan_right cfg1 cfg2 i1 i2 < cfg2.length →
        found_soon_right cfg1 cfg2 i1 (scan_right cfg1 cfg2 i1 i2) = true) := by
  intro n
  induction n with
  | zero =>
    intro i2 hn hle
    have hi : ¬ i2 < cfg2.length := by omega
    rw [scan_right, dif_neg hi]
    exact ⟨le_refl _, hle, fun t h1 h2 => absurd (lt_of_le_of_lt h1 h2) (lt_irrefl _),
      fun h => absurd h hi⟩
  | succ n ih =>
    intro i2 hn hle
    by_cases hi : i2 < cfg2.length
    · by_cases hf : found_soon_right cfg1 cfg2 i1 i2 = true
      · rw [scan_right, dif_pos hi, if_pos hf]
        exact ⟨le_refl _, hle, fun t h1 h2 => absurd (lt_of_le_of_lt h1 h2) (lt_irrefl _),
          fun _ => hf⟩
      · rw [Bool.not_eq_true] at hf
        have hrec := ih (i2 + 1) (by omega) (by omega)
        rw [scan_right, dif_pos hi, if_neg (by simp [hf])]
        refine ⟨by omega, hrec.2.1, ?_, hrec.2.2.2⟩
        intro t h1 h2
        rcases Nat.eq_or_lt_of_le h1 with he | hlt
        · rw [← he]; exact hf
        · exact hrec.2.2.1 t hlt h2
    · rw [scan_right, dif_neg hi]
      exact ⟨le_refl _, hle, fun t h1 h2 => absurd (lt_of_le_of_lt h1 h2) (lt_irrefl _),
        fun h => absurd h hi⟩

/-- C8: on a mismatch the cursors are extended exactly by the bounded-window
policy.  The left cursor stops at the first index at or after `i1` whose key
occurs among the 50 right-list elements starting at the right cursor `i2` (or
at the end of the left list); the right cursor then stops at the first index
at or after `i2` whose key occurs among the 50 left-list elements starting at
the updated left cursor (or at the end of the right list). -/
theorem C8_bounded_window_cursor_extension (cfg1 cfg2 : List ddrc_cfg_param)
    (i1 i2 : Nat) (h1 : i1 ≤ cfg1.length) (h2 : i2 ≤ cfg2.length) :
    i1 ≤ (block_scan cfg1 cfg2 i1 i2).1 ∧
    (block_scan cfg1 cfg2 i1 i2).1 ≤ cfg1.length ∧
    (∀ t, i1 ≤ t → t < (block_scan cfg1 cfg2 i1 i2).1 →
      ¬ inWindowRight cfg1 cfg2 t i2) ∧
    ((block_scan cfg1 cfg2 i1 i2).1 < cfg1.length →
      inWindowRight cfg1 cfg2 (block_scan cfg1 cfg2 i1 i2).1 i2) ∧
    i2 ≤ (block_scan cfg1 cfg2 i1 i2).2 ∧
    (block_scan cfg1 cfg2 i1 i2).2 ≤ cfg2.length ∧
    (∀ t, i2 ≤ t → t < (block_scan cfg1 cfg2 i1 i2).2 →
      ¬ inWindowLeft cfg1 cfg2 t (block_scan cfg1 cfg2 i1 i2).1) ∧
    ((block_scan cfg1 cfg2 i1 i2).2 < cfg2.length →
      inWindowLeft cfg1 cfg2 (block_scan cfg1 cfg2 i1 i2).2
        (block_scan cfg1 cfg2 i1 i2).1) := by
  have hl := scan_left_spec_aux cfg1 cfg2 i2 (cfg1.length - i1) i1 (le_refl _) h1
  have hr := scan_right_spec_aux cfg1 cfg2 (scan_left cfg1 cfg2 i2 i1)
    (cfg2.length - i2) i2 (le_refl _) h2
  rw [block_scan]
  refine ⟨hl.1, hl.2.1, ?_, ?_, hr.1, hr.2.1, ?_, ?_⟩
  · intro t ht1 ht2
    rw [← found_soon_left_iff]
    simp [hl.2.2.1 t ht1 ht2]
  · intro hlt
    rw [← found_soon_left_iff]
    exact hl.2.2.2 hlt
  · intro t ht1 ht2
    rw [← found_soon_right_iff]
    simp [hr.2.2.1 t ht1 ht2]
  · intro hlt
    rw [← found_soon_right_iff]
    exact hr.2.2.2 hlt

/-- C8 witness: the cursor-extension theorem applied to a concrete mismatch
state. -/
theorem C8_bounded_window_witness :
    (0 : Nat) ≤ (block_scan [⟨1, 0⟩, ⟨2, 0⟩] [⟨3, 0⟩, ⟨2, 0⟩] 0 0).1 ∧
    (block_scan [⟨1, 0⟩, ⟨2, 0⟩] [⟨3, 0⟩, ⟨2, 0⟩] 0 0).1 ≤ 2 ∧
    (∀ t, 0 ≤ t → t < (block_scan [⟨1, 0⟩, ⟨2, 0⟩] [⟨3, 0⟩, ⟨2, 0⟩] 0 0).1 →
      ¬ inWindowRight [⟨1, 0⟩, ⟨2, 0⟩] [⟨3, 0⟩, ⟨2, 0⟩] t 0) := by
  have h := C8_bounded_window_cursor_extension [⟨1, 0⟩, ⟨2, 0⟩] [⟨3, 0⟩, ⟨2, 0⟩] 0 0
    (by decide) (by decide)
  exact ⟨h.1, h.2.1, h.2.2.1⟩

/-! ## Key-wise reading of the diff counters under distinct keys (for C4) -/

theorem sameOrderChk_iff (cfg1 cfg2 : List ddrc_cfg_param)
    (hlen : cfg1.length = cfg2.length) :
    sameOrderChk cfg1 cfg2 = true ↔ regs cfg1 = regs cfg2 := by
  rw [sameOrderChk, List.all_eq_true]
  constructor
  · intro h
    apply List.ext_getElem (by simp [regs, hlen])
    intro i h1 h2
    simp only [regs, List.length_map] at h1 h2
    have := h i (List.mem_range.mpr h1)
    rw [beq_iff_eq, List.getD_eq_getElem _ _ h1, List.getD_eq_getElem _ _ h2] at this
    simp only [regs, List.getElem_map]
    exact this
  · intro h i hi
    rw [List.mem_range] at hi
    rw [beq_iff_eq, List.getD_eq_getElem _ _ hi, List.getD_eq_getElem _ _ (hlen ▸ hi)]
    have h2 := congrArg (fun l => l[i]?) h
    simp only [regs, List.getElem?_map] at h2
    rw [List.getElem?_eq_getElem hi, List.getElem?_eq_getElem (hlen ▸ hi)] at h2
    simpa using h2

theorem diffCountSameOrder_eq_zip :
    ∀ (cfg1 cfg2 : List ddrc_cfg_param), cfg1.length = cfg2.length →
      diffCountSameOrder cfg1 cfg2
        = (cfg1.zip cfg2).countP (fun p => !(p.1.val == p.2.val)) := by
  intro cfg1
  induction cfg1 with
  | nil => intro cfg2 _; simp [diffCountSameOrder]
  | cons a l1 ih =>
    intro cfg2 hlen
    cases cfg2 with
    | nil => simp at hlen
    | cons b l2 =>
      simp only [List.length_cons] at hlen
      rw [diffCountSameOrder, List.length_cons, List.range_succ_eq_map,
        List.countP_cons, List.countP_map]
      rw [List.zip_cons_cons, List.countP_cons]
      have e1 : (List.range l1.length).countP
          ((fun i => !((a :: l1).getD i ⟨0, 0⟩).val == ((b :: l2).getD i ⟨0, 0⟩).val) ∘
            Nat.succ) = diffCountSameOrder l1 l2 := by
        rw [diffCountSameOrder]
        apply List.countP_congr
        intro i _
        simp [Function.comp, List.getD_cons_succ]
      rw [e1, ih l2 (by omega)]
      simp [List.getD_cons_zero]

theorem sameOrder_zip_eq_keyCount :
    ∀ (cfg1 cfg2 : List ddrc_cfg_param), regs cfg1 = regs cfg2 →
      (regs cfg1).Nodup →
      (cfg1.zip cfg2).countP (fun p => !(p.1.val == p.2.val))
        = cfg1.countP (fun r => decide (keyVal r.reg cfg1 ≠ keyVal r.reg cfg2)) := by
  intro cfg1
  induction cfg1 with
  | nil => intro cfg2 _ _; simp
  | cons a l1 ih =>
    intro cfg2 hregs hnd
    cases cfg2 with
    | nil => simp [regs] at hregs
    | cons b l2 =>
      simp only [regs, List.map_cons, List.cons.injEq] at hregs
      obtain ⟨hab, htl⟩ := hregs
      rw [regs, List.map_cons, List.nodup_cons] at hnd
      obtain ⟨hniA, hndl⟩ := hnd
      rw [List.zip_cons_cons, List.countP_cons, List.countP_cons]
      have hheadL : keyVal a.reg (a :: l1) = some a.val := by
        rw [keyVal, List.find?_cons]
        simp
      have hheadR : keyVal a.reg (b :: l2) = some b.val := by
        rw [keyVal, List.find?_cons]
        simp [hab]
      have hpa : decide (keyVal a.reg (a :: l1) ≠ keyVal a.reg (b :: l2))
          = !(a.val == b.val) := by
        rw [hheadL, hheadR]
        by_cases h : a.val = b.val <;> simp [h]
      have htail : l1.countP
            (fun r => decide (keyVal r.reg (a :: l1) ≠ keyVal r.reg (b :: l2)))
          = l1.countP (fun r => decide (keyVal r.reg l1 ≠ keyVal r.reg l2)) := by
        apply List.countP_congr
        intro r hr
        have hne : a.reg ≠ r.reg := by
          intro he
          exact hniA (he ▸ List.mem_map.mpr ⟨r, hr, rfl⟩)
        have e1 : keyVal r.reg (a :: l1) = keyVal r.reg l1 := by
          rw [keyVal, List.find?_cons]
          have : (a.reg == r.reg) = false := by simp [hne]
          simp only [this]
          rfl
        have e2 : keyVal r.reg (b :: l2) = keyVal r.reg l2 := by
          rw [keyVal, List.find?_cons]
          have : (b.reg == r.reg) = false := by simp [hab ▸ hne]
          simp only [this]
          rfl
        rw [e1, e2]
      rw [htail, ih l2 (by simpa [regs] using htl) (by simpa [regs] using hndl)]
      rw [hpa]

theorem find?_eq_self_of_nodup :
    ∀ (cfg : List ddrc_cfg_param), (regs cfg).Nodup → ∀ r ∈ cfg,
      cfg.find? (fun s => s.reg == r.reg) = some r := by
  intro cfg
  induction cfg with
  | nil => intro _ r hr; simp at hr
  | cons a l ih =>
    intro hnd r hr
    rw [regs, List.map_cons, List.nodup_cons] at hnd
    obtain ⟨hniA, hndl⟩ := hnd
    rcases List.mem_cons.mp hr with he | hm
    · rw [he, List.find?_cons]
      simp
    · have hne : a.reg ≠ r.reg := by
        intro he
        exact hniA (he ▸ List.mem_map.mpr ⟨r, hm, rfl⟩)
      rw [List.find?_cons]
      have hb : (a.reg == r.reg) = false := by simp [hne]
      simp only [hb]
      exact ih (by rwa [regs]) r hm

theorem reorder_count_eq_keyCount (cfg1 cfg2 : List ddrc_cfg_param)
    (hnd : (regs cfg1).Nodup)
    (hap : ∀ r ∈ cfg1, regMem r.reg cfg2 = true) :
    diffCountReordered cfg1 cfg2
      = cfg1.countP (fun r => decide (keyVal r.reg cfg1 ≠ keyVal r.reg cfg2)) := by
  rw [diffCountReordered]
  apply List.countP_congr
  intro r hr
  have hself : keyVal r.reg cfg1 = some r.val := by
    rw [keyVal, find?_eq_self_of_nodup cfg1 hnd r hr]
    rfl
  have hmem := (regMem_iff r.reg cfg2).mp (hap r hr)
  obtain ⟨s, hs, hsreg⟩ := List.mem_map.mp hmem
  have hfind : ∃ t, cfg2.find? (fun s => s.reg == r.reg) = some t := by
    have : (cfg2.find? (fun s => s.reg == r.reg)).isSome = true := by
      rw [List.find?_isSome]
      exact ⟨s, hs, by simp [hsreg]⟩
    exact Option.isSome_iff_exists.mp this
  obtain ⟨t, ht⟩ := hfind
  have htreg : t.reg = r.reg := by
    have := List.find?_some ht
    exact beq_iff_eq.mp this
  rw [ht, hself, keyVal, ht]
  simp only [Option.map_some']
  rcases eq_or_ne t.val r.val with hv | hv
  · simp [hv]
  · simp [hv, Ne.symm hv]

theorem keyCount_eq_distinct (cfg1 cfg2 : List ddrc_cfg_param)
    (hnd : (regs cfg1).Nodup) :
    cfg1.countP (fun r => decide (keyVal r.reg cfg1 ≠ keyVal r.reg cfg2))
      = distinctDiffKeyCount cfg1 cfg2 := by
  rw [distinctDiffKeyCount, List.dedup_eq_self.mpr hnd, countP_regs]

/-- C4 counterexample: with a duplicated key, the same-order path counts one
difference per index, not one per distinct key: left `[(5,1),(5,1)]` vs right
`[(5,2),(5,2)]` returns outcome 0 with diffCount 2, while only one distinct
key differs. -/
theorem C4_counterexample :
    compare_ddrc_cfg_arrays true [⟨5, 1⟩, ⟨5, 1⟩] [⟨5, 2⟩, ⟨5, 2⟩] = (0, some 2) ∧
    distinctDiffKeyCount [⟨5, 1⟩, ⟨5, 1⟩] [⟨5, 2⟩, ⟨5, 2⟩] = 1 := by
  constructor
  · rw [compare_ddrc_cfg_arrays]; decide
  · decide

/-- C4 amended: in both the IdenticalOrder (0) and the Reordered (1) outcome
the reported diffCount counts one difference per left index (positionally in
the first case, against the first right record with the same key in the
second); when the left list's keys are pairwise distinct this equals the
number of distinct keys whose values differ, and it never counts a key that
is present on one side and absent on the other (both outcomes require every
key to be present on both sides).  With duplicated keys each differing
occurrence is counted separately. -/
theorem C4_amended_diffcount_distinct_keys (a : Bool)
    (cfg1 cfg2 : List ddrc_cfg_param) (hnd : (regs cfg1).Nodup)
    (h : (compare_ddrc_cfg_arrays a cfg1 cfg2).1 = 0 ∨
         (compare_ddrc_cfg_arrays a cfg1 cfg2).1 = 1) :
    (compare_ddrc_cfg_arrays a cfg1 cfg2).2
      = some (distinctDiffKeyCount cfg1 cfg2) := by
  rcases h with h0 | h1
  · obtain ⟨hlen, hso⟩ := compare_result_zero_inv a cfg1 cfg2 h0
    rw [compare_branch_same_order a cfg1 cfg2 hlen hso]
    rw [diffCountSameOrder_eq_zip cfg1 cfg2 hlen,
      sameOrder_zip_eq_keyCount cfg1 cfg2 ((sameOrderChk_iff cfg1 cfg2 hlen).mp hso) hnd,
      keyCount_eq_distinct cfg1 cfg2 hnd]
  · obtain ⟨hlen, hso, hap⟩ := compare_result_one_inv a cfg1 cfg2 h1
    rw [compare_branch_reordered a cfg1 cfg2 hlen hso hap]
    have hapl : ∀ r ∈ cfg1, regMem r.reg cfg2 = true := by
      rw [allPresentChk, Bool.and_eq_true, List.all_eq_true, List.all_eq_true] at hap
      exact hap.1
    rw [reorder_count_eq_keyCount cfg1 cfg2 hnd hapl,
      keyCount_eq_distinct cfg1 cfg2 hnd]

/-- C4 witness: the amended theorem applied to a concrete distinct-key input
that takes the IdenticalOrder path. -/
theorem C4_amended_witness :
    (compare_ddrc_cfg_arrays true [⟨1, 5⟩, ⟨2, 7⟩] [⟨1, 6⟩, ⟨2, 7⟩]).2
      = some (distinctDiffKeyCount [⟨1, 5⟩, ⟨2, 7⟩] [⟨1, 6⟩, ⟨2, 7⟩]) := by
  apply C4_amended_diffcount_distinct_keys true [⟨1, 5⟩, ⟨2, 7⟩] [⟨1, 6⟩, ⟨2, 7⟩]
    (by decide)
  left
  rw [compare_ddrc_cfg_arrays]
  decide

/-! ## Duplicate scanner: allocation failure and duplicate-free lists (C10) -/

theorem grpScan_no_match (cfg : List ddrc_cfg_param) (r0 num : Nat) :
    ∀ n j occs proc, num - j ≤ n →
      (∀ t, j ≤ t → t < num → (cfg.getD t ⟨0, 0⟩).reg ≠ r0) →
      grpScan cfg r0 num j occs proc = (occs, proc) := by
  intro n
  induction n with
  | zero =>
    intro j occs proc hn _
    rw [grpScan, dif_neg (by omega)]
  | succ n ih =>
    intro j occs proc hn hno
    by_cases hj : j < num
    · have hkey : ((cfg.getD j ⟨0, 0⟩).reg == r0) = false := by
        rw [beq_eq_false_iff_ne]
        exact hno j (le_refl j) hj
      rw [grpScan, dif_pos hj]
      rw [hkey]
      simp only [Bool.false_and, if_false]
      exact ih (j + 1) occs proc (by omega) (fun t h1 h2 => hno t (by omega) h2)
    · rw [grpScan, dif_neg hj]

theorem nodup_keys_getD (cfg : List ddrc_cfg_param) (h : (regs cfg).Nodup) :
    ∀ t1 t2, t1 < t2 → t2 < cfg.length →
      (cfg.getD t1 ⟨0, 0⟩).reg ≠ (cfg.getD t2 ⟨0, 0⟩).reg := by
  intro t1 t2 h12 h2
  have h1 : t1 < cfg.length := lt_trans h12 h2
  rw [List.getD_eq_getElem _ _ h1, List.getD_eq_getElem _ _ h2]
  intro he
  have ht1 : t1 < (regs cfg).length := by simpa [regs] using h1
  have ht2 : t2 < (regs cfg).length := by simpa [regs] using h2
  have e1 : (regs cfg).get ⟨t1, ht1⟩ = (regs cfg).get ⟨t2, ht2⟩ := by
    simp only [regs, List.get_eq_getElem, List.getElem_map]
    exact he
  have e2 := h.get_inj_iff.mp e1
  have e3 : t1 = t2 := by simpa using e2
  omega

theorem dupLoop_nodup_nil (cfg : List ddrc_cfg_param) (maxDups : Nat)
    (hnd : (regs cfg).Nodup) :
    ∀ n i processed dups, cfg.length - i ≤ n →
      dupLoop cfg cfg.length maxDups i processed dups = dups := by
  intro n
  induction n with
  | zero =>
    intro i processed dups hn
    rw [dupLoop]
    have : ¬ (i < cfg.length ∧ dups.length < maxDups) := by omega
    rw [dif_neg this]
  | succ n ih =>
    intro i processed dups hn
    by_cases hg : i < cfg.length ∧ dups.length < maxDups
    · rw [dupLoop, dif_pos hg]
      by_cases hc : processed.contains i
      · rw [if_pos hc]
        exact ih (i + 1) processed dups (by omega)
      · rw [if_neg hc]
        have hscan : grpScan cfg (cfg.getD i ⟨0, 0⟩).reg cfg.length (i + 1)
            [(i, (cfg.getD i ⟨0, 0⟩).val)] [] = ([(i, (cfg.getD i ⟨0, 0⟩).val)], []) :=
          grpScan_no_match cfg _ cfg.length (cfg.length - (i + 1)) (i + 1) _ _
            (le_refl _)
            (fun t h1 h2 => (nodup_keys_getD cfg hnd i t (by omega) h2).symm)
        simp only [hscan]
        have hlen1 : ¬ (1 : Nat) < ([(i, (cfg.getD i ⟨0, 0⟩).val)] : List (Nat × Nat)).length := by
          simp
        rw [if_neg hlen1, List.append_nil]
        exact ih (i + 1) processed dups (by omega)
    · rw [dupLoop, dif_neg hg]

/-- C10: if the `calloc` of the processed-flags scratch array fails, both
duplicate scanners return zero duplicate groups — exactly the output they
produce, with the allocation succeeding, on any list whose keys are pairwise
distinct; at the interface an allocation failure is therefore
indistinguishable from a duplicate-free list. -/
theorem C10_alloc_failure_indistinguishable (cfg : List ddrc_cfg_param)
    (maxDups : Nat) :
    find_duplicates_ddrc false cfg maxDups = [] ∧
    find_duplicates_ddrphy false cfg maxDups = [] ∧
    ((regs cfg).Nodup → find_duplicates_ddrc true cfg maxDups = []) ∧
    ((regs cfg).Nodup → find_duplicates_ddrphy true cfg maxDups = []) := by
  have hdd : ∀ h : (regs cfg).Nodup, find_duplicates_ddrc true cfg maxDups = [] := by
    intro h
    rw [find_duplicates_ddrc, if_pos rfl]
    exact dupLoop_nodup_nil cfg maxDups h cfg.length 0 [] [] (by omega)
  exact ⟨rfl, rfl, hdd, hdd⟩

/-- C10 witness: the theorem applied to a concrete list with distinct keys
(and, for the allocation-failure half, to a list that does contain
duplicates). -/
theorem C10_witness :
    find_duplicates_ddrc false [⟨1, 2⟩, ⟨1, 3⟩] 100 = [] ∧
    find_duplicates_ddrc true [⟨1, 2⟩, ⟨2, 3⟩] 100 = [] := by
  exact ⟨(C10_alloc_failure_indistinguishable [⟨1, 2⟩, ⟨1, 3⟩] 100).1,
    (C10_alloc_failure_indistinguishable [⟨1, 2⟩, ⟨2, 3⟩] 100).2.2.1 (by decide)⟩

/-! ## Duplicate scanner characterization (C7) -/

theorem keyIdxFrom_stop (cfg : List ddrc_cfg_param) (r0 num j : Nat)
    (h : ¬ j < num) : keyIdxFrom cfg r0 num j = [] := by
  rw [keyIdxFrom, dif_neg h]

theorem mem_keyIdxFrom (cfg : List ddrc_cfg_param) (r0 num : Nat) :
    ∀ n j t, num - j ≤ n →
      (t ∈ keyIdxFrom cfg r0 num j ↔
        j ≤ t ∧ t < num ∧ (cfg.getD t ⟨0, 0⟩).reg = r0) := by
  intro n
  induction n with
  | zero =>
    intro j t hn
    rw [keyIdxFrom_stop cfg r0 num j (by omega)]
    simp
    omega
  | succ n ih =>
    intro j t hn
    by_cases hj : j < num
    · rw [keyIdxFrom, dif_pos hj]
      by_cases hk : ((cfg.getD j ⟨0, 0⟩).reg == r0) = true
      · rw [if_pos hk, List.mem_cons, ih (j + 1) t (by omega)]
        constructor
        · rintro (he | ⟨h1, h2, h3⟩)
          · exact ⟨le_of_eq he.symm, he ▸ hj, he ▸ beq_iff_eq.mp hk⟩
          · exact ⟨by omega, h2, h3⟩
        · rintro ⟨h1, h2, h3⟩
          rcases Nat.eq_or_lt_of_le h1 with he | hlt
          · exact Or.inl he.symm
          · exact Or.inr ⟨hlt, h2, h3⟩
      · rw [if_neg hk, ih (j + 1) t (by omega)]
        rw [Bool.not_eq_true, beq_eq_false_iff_ne] at hk
        constructor
        · rintro ⟨h1, h2, h3⟩
          exact ⟨by omega, h2, h3⟩
        · rintro ⟨h1, h2, h3⟩
          rcases Nat.eq_or_lt_of_le h1 with he | hlt
          · exact absurd (he ▸ h3) hk
          · exact ⟨hlt, h2, h3⟩
    · rw [keyIdxFrom_stop cfg r0 num j hj]
      simp
      omega

theorem keyIdxFrom_skip (cfg : List ddrc_cfg_param) (r0 num : Nat) :
    ∀ n a i, i - a ≤ n → a ≤ i →
      (∀ t, a ≤ t → t < i → (cfg.getD t ⟨0, 0⟩).reg ≠ r0) →
      keyIdxFrom cfg r0 num a = keyIdxFrom cfg r0 num i := by
  intro n
  induction n with
  | zero =>
    intro a i hn hai _
    have : a = i := by omega
    rw [this]
  | succ n ih =>
    intro a i hn hai hno
    rcases Nat.eq_or_lt_of_le hai with he | hlt
    · rw [he]
    · by_cases ha : a < num
      · have hk : ((cfg.getD a ⟨0, 0⟩).reg == r0) = false := by
          rw [beq_eq_false_iff_ne]
          exact hno a (le_refl a) hlt
        rw [keyIdxFrom, dif_pos ha, hk]
        simp only [Bool.false_eq_true, if_false]
        exact ih (a + 1) i (by omega) (by omega)
          (fun t h1 h2 => hno t (by omega) h2)
      · rw [keyIdxFrom_stop cfg r0 num a ha,
          keyIdxFrom_stop cfg r0 num i (by omega)]

/-- If `i` is the first occurrence of register `r0` in `cfg`, the occurrence
index list is `i` followed by the occurrences after `i`. -/
theorem keyIdx_first_decomp (cfg : List ddrc_cfg_param) (i : Nat)
    (hi : i < cfg.length)
    (hfirst : ∀ t, t < i → (cfg.getD t ⟨0, 0⟩).reg ≠ (cfg.getD i ⟨0, 0⟩).reg) :
    keyIdx cfg ((cfg.getD i ⟨0, 0⟩).reg)
      = i :: keyIdxFrom cfg ((cfg.getD i ⟨0, 0⟩).reg) cfg.length (i + 1) := by
  rw [keyIdx, keyIdxFrom_skip cfg _ cfg.length i 0 i (by omega) (by omega)
    (fun t h1 h2 => hfirst t h2)]
  rw [keyIdxFrom, dif_pos hi]
  simp

theorem isFirstOcc_iff (cfg : List ddrc_cfg_param) (i : Nat) :
    isFirstOcc cfg i = true ↔
      ∀ t, t < i → (cfg.getD t ⟨0, 0⟩).reg ≠ (cfg.getD i ⟨0, 0⟩).reg := by
  rw [isFirstOcc, List.all_eq_true]
  constructor
  · intro h t ht
    have := h t (List.mem_range.mpr ht)
    rwa [Bool.not_eq_eq_eq_not, Bool.not_true, beq_eq_false_iff_ne] at this
  · intro h t ht
    rw [Bool.not_eq_eq_eq_not, Bool.not_true, beq_eq_false_iff_ne]
    exact h t (List.mem_range.mp ht)

/-- The inner loop collects exactly the later occurrences, provided the
64-entry group cap is not hit. -/
theorem grpScan_collect (cfg : List ddrc_cfg_param) (r0 num : Nat) :
    ∀ n j occs proc, num - j ≤ n →
      occs.length + (keyIdxFrom cfg r0 num j).length ≤ 64 →
      grpScan cfg r0 num j occs proc
        = (occs ++ (keyIdxFrom cfg r0 num j).map
            (fun t => (t, (cfg.getD t ⟨0, 0⟩).val)),
           proc ++ keyIdxFrom cfg r0 num j) := by
  intro n
  induction n with
  | zero =>
    intro j occs proc hn _
    rw [grpScan, dif_neg (by omega), keyIdxFrom_stop cfg r0 num j (by omega)]
    simp
  | succ n ih =>
    intro j occs proc hn hcap
    by_cases hj : j < num
    · by_cases hk : ((cfg.getD j ⟨0, 0⟩).reg == r0) = true
      · have hdecomp : keyIdxFrom cfg r0 num j
            = j :: keyIdxFrom cfg r0 num (j + 1) := by
          rw [keyIdxFrom, dif_pos hj, if_pos hk]
        rw [hdecomp] at hcap
        simp only [List.length_cons] at hcap
        have hlt64 : occs.length < 64 := by omega
        rw [grpScan, dif_pos hj,
          if_pos (by rw [Bool.and_eq_true]; exact ⟨hk, decide_eq_true hlt64⟩)]
        rw [ih (j + 1) (occs ++ [(j, (cfg.getD j ⟨0, 0⟩).val)]) (proc ++ [j])
          (by omega) (by simp; omega)]
        rw [hdecomp]
        simp
      · rw [Bool.not_eq_true] at hk
        have hdecomp : keyIdxFrom cfg r0 num j = keyIdxFrom cfg r0 num (j + 1) := by
          rw [keyIdxFrom, dif_pos hj, hk]
          simp
        have hcond : ((cfg.getD j ⟨0, 0⟩).reg == r0 && decide (occs.length < 64))
            = false := by rw [hk]; rfl
        rw [grpScan, dif_pos hj,
          if_neg (by rw [hcond]; exact Bool.false_ne_true), hdecomp]
        exact ih (j + 1) occs proc (by omega) (hdecomp ▸ hcap)
    · rw [grpScan, dif_neg hj, keyIdxFrom_stop cfg r0 num j hj]
      simp

theorem contains_iff_mem (l : List Nat) (a : Nat) :
    l.contains a = true ↔ a ∈ l := by
  rw [List.contains_eq_any_beq, List.any_eq_true]
  constructor
  · rintro ⟨x, hx, hb⟩
    rwa [beq_iff_eq.mp hb]
  · intro h
    exact ⟨a, h, by simp⟩

theorem range_split (i n : Nat) (h : i ≤ n) :
    List.range n = List.range i ++ List.range' i (n - i) := by
  have h1 := List.range'_append 0 i (n - i) 1
  rw [List.range_eq_range']
  have h2 : 0 + 1 * i = i := by omega
  have h3 : n - i + i = n := by omega
  rw [h2, h3] at h1
  rw [← h1, List.range_eq_range']


theorem repIdxBelow_split (cfg : List ddrc_cfg_param) (i n : Nat) (h : i ≤ n) :
    repIdxBelow cfg n = repIdxBelow cfg i
      ++ (List.range' i (n - i)).filter (fun t =>
          isFirstOcc cfg t && decide (2 ≤ multOf cfg ((cfg.getD t ⟨0, 0⟩).reg))) := by
  rw [repIdxBelow, repIdxBelow, range_split i n h, List.filter_append]

theorem repIdxBelow_succ (cfg : List ddrc_cfg_param) (i : Nat) :
    repIdxBelow cfg (i + 1) = repIdxBelow cfg i
      ++ (if isFirstOcc cfg i && decide (2 ≤ multOf cfg ((cfg.getD i ⟨0, 0⟩).reg))
          then [i] else []) := by
  rw [repIdxBelow, repIdxBelow, List.range_succ, List.filter_append]
  congr 1
  rw [List.filter_cons, List.filter_nil]

/-- The outer scanner loop, run from any state satisfying its invariant
(processed indices are exactly those with an earlier occurrence of their key
before the cursor; recorded groups are exactly the groups rooted before the
cursor), produces the full expected group sequence, provided no key exceeds
the 64-entry group cap and the group capacity `maxDups` is not exceeded. -/
theorem dupLoop_spec (cfg : List ddrc_cfg_param) (maxDups : Nat)
    (h64 : ∀ k, multOf cfg k ≤ 64)
    (hcap : (repIdx cfg).length ≤ maxDups) :
    ∀ n i processed dups, cfg.length - i ≤ n → i ≤ cfg.length →
      (∀ j, processed.contains j = true ↔
        (∃ t, t < i ∧ t < j ∧ j < cfg.length ∧
          (cfg.getD t ⟨0, 0⟩).reg = (cfg.getD j ⟨0, 0⟩).reg)) →
      dups = (repIdxBelow cfg i).map (fun t =>
        ⟨(cfg.getD t ⟨0, 0⟩).reg, keyOccs cfg ((cfg.getD t ⟨0, 0⟩).reg)⟩) →
      dupLoop cfg cfg.length maxDups i processed dups = specDups cfg := by
  intro n
  induction n with
  | zero =>
    intro i processed dups hn hile hproc hdups
    have hieq : i = cfg.length := by omega
    rw [dupLoop, dif_neg (by omega), hdups, hieq, specDups, repIdx]
  | succ n ih =>
    intro i processed dups hn hile hproc hdups
    by_cases hg : i < cfg.length ∧ dups.length < maxDups
    · rw [dupLoop, dif_pos hg]
      by_cases hc : processed.contains i = true
      · rw [if_pos hc]
        obtain ⟨t0, ht0i, _, _, hkey0⟩ := (hproc i).mp hc
        have hnotfirst : isFirstOcc cfg i = false := by
          rw [← Bool.not_eq_true, isFirstOcc_iff]
          push_neg
          exact ⟨t0, ht0i, hkey0⟩
        apply ih (i + 1) processed dups (by omega) (by omega)
        · intro j
          rw [hproc j]
          constructor
          · rintro ⟨t, h1, h2, h3, h4⟩
            exact ⟨t, by omega, h2, h3, h4⟩
          · rintro ⟨t, h1, h2, h3, h4⟩
            by_cases hti : t < i
            · exact ⟨t, hti, h2, h3, h4⟩
            · have hteq : t = i := by omega
              subst hteq
              exact ⟨t0, ht0i, by omega, h3, hkey0.trans h4⟩
        · rw [hdups, repIdxBelow_succ, hnotfirst]
          simp
      · rw [if_neg hc]
        rw [Bool.not_eq_true] at hc
        have hnoEarlier : ∀ t, t < i →
            (cfg.getD t ⟨0, 0⟩).reg ≠ (cfg.getD i ⟨0, 0⟩).reg := by
          intro t ht he
          have hct : processed.contains i = true := (hproc i).mpr ⟨t, ht, ht, hg.1, he⟩
          rw [hc] at hct
          exact Bool.false_ne_true hct
        have hfirst : isFirstOcc cfg i = true := (isFirstOcc_iff cfg i).mpr hnoEarlier
        have hdecomp := keyIdx_first_decomp cfg i hg.1 hnoEarlier
        have hmult : multOf cfg ((cfg.getD i ⟨0, 0⟩).reg)
            = 1 + (keyIdxFrom cfg ((cfg.getD i ⟨0, 0⟩).reg) cfg.length (i + 1)).length := by
          rw [multOf, hdecomp, List.length_cons]
          omega
        have hscan := grpScan_collect cfg ((cfg.getD i ⟨0, 0⟩).reg) cfg.length
          (cfg.length - (i + 1)) (i + 1) [(i, (cfg.getD i ⟨0, 0⟩).val)] []
          (le_refl _)
          (by
            have h1 := h64 ((cfg.getD i ⟨0, 0⟩).reg)
            rw [hmult] at h1
            simp only [List.length_singleton]
            omega)
        simp only [List.nil_append, List.singleton_append] at hscan
        simp only [hscan]
        by_cases hrest : keyIdxFrom cfg ((cfg.getD i ⟨0, 0⟩).reg) cfg.length (i + 1) = []
        · rw [hrest]
          simp only [List.map_nil, List.length_cons, List.length_nil, List.append_nil]
          rw [if_neg (by omega)]
          apply ih (i + 1) processed dups (by omega) (by omega)
          · intro j
            rw [hproc j]
            constructor
            · rintro ⟨t, h1, h2, h3, h4⟩
              exact ⟨t, by omega, h2, h3, h4⟩
            · rintro ⟨t, h1, h2, h3, h4⟩
              by_cases hti : t < i
              · exact ⟨t, hti, h2, h3, h4⟩
              · have hteq : t = i := by omega
                subst hteq
                have hjmem : j ∈ keyIdxFrom cfg ((cfg.getD t ⟨0, 0⟩).reg) cfg.length (t + 1) :=
                  (mem_keyIdxFrom cfg _ cfg.length (cfg.length - (t + 1)) (t + 1) j
                    (le_refl _)).mpr ⟨by omega, h3, h4.symm⟩
                rw [hrest] at hjmem
                exact absurd hjmem (List.not_mem_nil j)
          · rw [hdups, repIdxBelow_succ]
            have hm1 : multOf cfg ((cfg.getD i ⟨0, 0⟩).reg) = 1 := by
              rw [hmult, hrest]
              simp
            rw [hm1]
            simp
        · have hpos : 0 < (keyIdxFrom cfg ((cfg.getD i ⟨0, 0⟩).reg) cfg.length (i + 1)).length :=
            List.length_pos.mpr hrest
          rw [if_pos (by simp only [List.length_cons, List.length_map]; omega)]
          refine ih (i + 1) _ _ (by omega) (by omega) ?_ ?_
          · intro j
            rw [contains_iff_mem, List.mem_append, ← contains_iff_mem, hproc j]
            rw [mem_keyIdxFrom cfg _ cfg.length (cfg.length - (i + 1)) (i + 1) j (le_refl _)]
            constructor
            · rintro (⟨t, h1, h2, h3, h4⟩ | ⟨h1, h2, h3⟩)
              · exact ⟨t, by omega, h2, h3, h4⟩
              · exact ⟨i, by omega, by omega, h2, h3.symm⟩
            · rintro ⟨t, h1, h2, h3, h4⟩
              by_cases hti : t < i
              · exact Or.inl ⟨t, hti, h2, h3, h4⟩
              · have hteq : t = i := by omega
                subst hteq
                exact Or.inr ⟨by omega, h3, h4.symm⟩
          · rw [hdups, repIdxBelow_succ, hfirst]
            have hm2 : (2 : Nat) ≤ multOf cfg ((cfg.getD i ⟨0, 0⟩).reg) := by
              rw [hmult]
              omega
            rw [decide_eq_true hm2]
            simp only [Bool.and_true, Bool.true_and, if_pos, List.map_append]
            congr 1
            simp only [List.map_cons, List.map_nil]
            rw [keyOccs, hdecomp]
            simp
    · rw [dupLoop, dif_neg hg]
      by_cases hi : i < cfg.length
      · have hdlen : dups.length = (repIdxBelow cfg i).length := by
          rw [hdups, List.length_map]
        have hmax : maxDups ≤ dups.length := by
          rcases Nat.lt_or_ge dups.length maxDups with hlt | hge
          · exact absurd ⟨hi, hlt⟩ hg
          · exact hge
        have hsplit := repIdxBelow_split cfg i cfg.length hile
        have hlen2 : (repIdx cfg).length = (repIdxBelow cfg i).length
            + ((List.range' i (cfg.length - i)).filter (fun t =>
                isFirstOcc cfg t &&
                  decide (2 ≤ multOf cfg ((cfg.getD t ⟨0, 0⟩).reg)))).length := by
          rw [repIdx, hsplit, List.length_append]
        have hrest0 : ((List.range' i (cfg.length - i)).filter (fun t =>
            isFirstOcc cfg t &&
              decide (2 ≤ multOf cfg ((cfg.getD t ⟨0, 0⟩).reg)))).length = 0 := by
          omega
        have heq : repIdx cfg = repIdxBelow cfg i := by
          rw [repIdx, hsplit, List.length_eq_zero.mp hrest0, List.append_nil]
        rw [hdups, specDups, heq]
      · have hieq : i = cfg.length := by omega
        rw [hdups, hieq, specDups, repIdx]

/-- The scanner computes exactly the expected duplicate-group sequence when
no key has more than 64 occurrences and at most `maxDups` keys are
repeated. -/
theorem find_duplicates_eq_specDups (cfg : List ddrc_cfg_param) (maxDups : Nat)
    (h64 : ∀ k, multOf cfg k ≤ 64)
    (hcap : (repIdx cfg).length ≤ maxDups) :
    find_duplicates_ddrc true cfg maxDups = specDups cfg := by
  rw [find_duplicates_ddrc, if_pos rfl]
  apply dupLoop_spec cfg maxDups h64 hcap cfg.length 0 [] [] (by omega) (by omega)
  · intro j
    constructor
    · intro h
      simp [List.contains_eq_any_beq] at h
    · rintro ⟨t, h1, _, _, _⟩
      omega
  · rw [repIdxBelow]
    simp

theorem keyIdxFrom_length_le (cfg : List ddrc_cfg_param) (r0 num : Nat) :
    ∀ n j, num - j ≤ n → (keyIdxFrom cfg r0 num j).length ≤ num - j := by
  intro n
  induction n with
  | zero =>
    intro j hn
    rw [keyIdxFrom_stop cfg r0 num j (by omega)]
    simp
  | succ n ih =>
    intro j hn
    by_cases hj : j < num
    · rw [keyIdxFrom, dif_pos hj]
      by_cases hk : ((cfg.getD j ⟨0, 0⟩).reg == r0) = true
      · rw [if_pos hk, List.length_cons]
        have := ih (j + 1) (by omega)
        omega
      · rw [if_neg hk]
        have := ih (j + 1) (by omega)
        omega
    · rw [keyIdxFrom_stop cfg r0 num j hj]
      simp

theorem multOf_le_length (cfg : List ddrc_cfg_param) (k : Nat) :
    multOf cfg k ≤ cfg.length := by
  rw [multOf, keyIdx]
  have := keyIdxFrom_length_le cfg k cfg.length cfg.length 0 (by omega)
  omega

theorem mem_repIdx_iff (cfg : List ddrc_cfg_param) (i : Nat) :
    i ∈ repIdx cfg ↔ i < cfg.length ∧ isFirstOcc cfg i = true ∧
      2 ≤ multOf cfg ((cfg.getD i ⟨0, 0⟩).reg) := by
  rw [repIdx, repIdxBelow, List.mem_filter, List.mem_range, Bool.and_eq_true,
    decide_eq_true_eq]

theorem repIdx_nodup (cfg : List ddrc_cfg_param) : (repIdx cfg).Nodup := by
  rw [repIdx, repIdxBelow]
  exact (List.nodup_range _).filter _

/-- Each repeated register has exactly one root index in `repIdx`: the first
occurrence of that register. -/
theorem repIdx_unique_root (cfg : List ddrc_cfg_param) (K : Nat)
    (hK : 2 ≤ multOf cfg K) :
    ∃ i0, i0 ∈ repIdx cfg ∧ (cfg.getD i0 ⟨0, 0⟩).reg = K ∧
      ∀ i ∈ repIdx cfg, (cfg.getD i ⟨0, 0⟩).reg = K → i = i0 := by
  have hpos : 0 < (keyIdx cfg K).length := by
    rw [← multOf]
    omega
  obtain ⟨j, hj⟩ := List.exists_mem_of_length_pos hpos
  rw [keyIdx] at hj
  have hjp := (mem_keyIdxFrom cfg K cfg.length cfg.length 0 j (by omega)).mp hj
  have hex : ∃ t, t < cfg.length ∧ (cfg.getD t ⟨0, 0⟩).reg = K := ⟨j, hjp.2.1, hjp.2.2⟩
  refine ⟨Nat.find hex, ?_, ?_, ?_⟩
  · rw [mem_repIdx_iff]
    have hspec := Nat.find_spec hex
    refine ⟨hspec.1, ?_, ?_⟩
    · rw [isFirstOcc_iff]
      intro t ht he
      exact Nat.find_min hex ht ⟨lt_trans ht hspec.1, he.trans hspec.2⟩
    · rw [hspec.2]
      exact hK
  · exact (Nat.find_spec hex).2
  · intro i hi hiK
    by_contra hne
    have hspec := Nat.find_spec hex
    rw [mem_repIdx_iff] at hi
    rcases Nat.lt_or_ge i (Nat.find hex) with hlt | hge
    · exact Nat.find_min hex hlt ⟨hi.1, hiK⟩
    · have hlt2 : Nat.find hex < i := by omega
      exact (isFirstOcc_iff cfg i).mp hi.2.1 (Nat.find hex) hlt2
        (hspec.2.trans hiK.symm)

/-- C7 counterexample: the scanner's output-capacity parameter `max_dups` can
drop whole groups the claim promises.  With `max_dups = 1` and the list
`[(0,_),(0,_),(1,_),(1,_)]`, key 1 appears twice (well within the per-group
cap of 64) yet no group for key 1 is produced — only the first repeated key
gets a group. -/
theorem C7_counterexample :
    multOf [⟨0, 10⟩, ⟨0, 11⟩, ⟨1, 12⟩, ⟨1, 13⟩] 1 = 2 ∧
    find_duplicates_ddrc true [⟨0, 10⟩, ⟨0, 11⟩, ⟨1, 12⟩, ⟨1, 13⟩] 1
      = [⟨0, [(0, 10), (1, 11)]⟩] ∧
    ((find_duplicates_ddrc true [⟨0, 10⟩, ⟨0, 11⟩, ⟨1, 12⟩, ⟨1, 13⟩] 1).filter
      (fun g => g.reg == 1)).length = 0 := by
  have h2 : find_duplicates_ddrc true [⟨0, 10⟩, ⟨0, 11⟩, ⟨1, 12⟩, ⟨1, 13⟩] 1
      = [⟨0, [(0, 10), (1, 11)]⟩] := by
    simp [find_duplicates_ddrc, dupLoop, grpScan]
  refine ⟨?_, h2, ?_⟩
  · simp [multOf, keyIdx, keyIdxFrom]
  · rw [h2]
    decide

/-- C7 amended: provided no register has more than 64 occurrences and the
number of repeated registers does not exceed the scanner's output capacity
`max_dups` (the program's call sites pass 100), the scanner produces exactly
one DuplicateGroup for each register K with multiplicity ≥ 2, containing all
of K's (index, value) pairs in original list order; the groups appear in
first-occurrence order of the repeated registers, and registers occurring
only once yield no group. -/
theorem C7_amended_scanner (cfg : List ddrc_cfg_param) (maxDups K : Nat)
    (h64 : ∀ k, multOf cfg k ≤ 64)
    (hcap : (repIdx cfg).length ≤ maxDups)
    (hK : 2 ≤ multOf cfg K) :
    ((find_duplicates_ddrc true cfg maxDups).filter (fun g => g.reg == K)).length = 1 ∧
    (∀ g ∈ find_duplicates_ddrc true cfg maxDups, g.reg = K →
      g.occs = keyOccs cfg K) ∧
    (∀ g ∈ find_duplicates_ddrc true cfg maxDups, 2 ≤ multOf cfg g.reg) ∧
    (find_duplicates_ddrc true cfg maxDups).map duplicate_info.reg
      = (repIdx cfg).map (fun i => (cfg.getD i ⟨0, 0⟩).reg) := by
  rw [find_duplicates_eq_specDups cfg maxDups h64 hcap]
  obtain ⟨i0, hi0mem, hi0K, hi0uniq⟩ := repIdx_unique_root cfg K hK
  refine ⟨?_, ?_, ?_, ?_⟩
  · rw [specDups, List.filter_map, List.length_map, ← List.countP_eq_length_filter]
    have hcongr : (repIdx cfg).countP
        ((fun g : duplicate_info => g.reg == K) ∘ (fun i =>
          (⟨(cfg.getD i ⟨0, 0⟩).reg, keyOccs cfg ((cfg.getD i ⟨0, 0⟩).reg)⟩ : duplicate_info)))
        = (repIdx cfg).countP (fun i => i == i0) := by
      apply List.countP_congr
      intro i hi
      simp only [Function.comp_apply, beq_iff_eq]
      constructor
      · intro h
        exact hi0uniq i hi h
      · intro h
        rw [h]
        exact hi0K
    rw [hcongr]
    exact List.count_eq_one_of_mem (repIdx_nodup cfg) hi0mem
  · intro g hg hgK
    rw [specDups] at hg
    obtain ⟨i, hi, hgi⟩ := List.mem_map.mp hg
    rw [← hgi] at hgK ⊢
    simp only at hgK ⊢
    rw [hgK]
  · intro g hg
    rw [specDups] at hg
    obtain ⟨i, hi, hgi⟩ := List.mem_map.mp hg
    rw [← hgi]
    exact ((mem_repIdx_iff cfg i).mp hi).2.2
  · rw [specDups, List.map_map]
    rfl

/-- C7 witness: the amended theorem applied to a concrete list in which
register 5 appears twice. -/
theorem C7_amended_witness :
    ((find_duplicates_ddrc true [⟨5, 1⟩, ⟨7, 2⟩, ⟨5, 3⟩] 100).filter
        (fun g => g.reg == 5)).length = 1 ∧
    (∀ g ∈ find_duplicates_ddrc true [⟨5, 1⟩, ⟨7, 2⟩, ⟨5, 3⟩] 100, g.reg = 5 →
      g.occs = keyOccs [⟨5, 1⟩, ⟨7, 2⟩, ⟨5, 3⟩] 5) := by
  have hK : multOf [⟨5, 1⟩, ⟨7, 2⟩, ⟨5, 3⟩] 5 = 2 := by
    simp [multOf, keyIdx, keyIdxFrom]
  have h := C7_amended_scanner [⟨5, 1⟩, ⟨7, 2⟩, ⟨5, 3⟩] 100 5
    (fun k => le_trans (multOf_le_length _ k) (by norm_num))
    (by
      rw [repIdx, repIdxBelow]
      exact le_trans (List.length_filter_le _ _) (by simp))
    (by omega)
  exact ⟨h.1, h.2.1⟩

/-- C3 witness: the amended theorem applied to concrete duplicate-free
lists. -/
theorem C3_amended_witness :
    count_unique_left [⟨1, 1⟩] [⟨1, 2⟩, ⟨2, 3⟩]
        + (count_common_ddrc [⟨1, 1⟩] [⟨1, 2⟩, ⟨2, 3⟩]).1 = 1 ∧
    (extract_common_ddrc [⟨1, 1⟩] [⟨1, 2⟩, ⟨2, 3⟩]).1.length
      = (extract_common_ddrc [⟨1, 1⟩] [⟨1, 2⟩, ⟨2, 3⟩]).2.length := by
  have h := C3_amended_differencer_partition [⟨1, 1⟩] [⟨1, 2⟩, ⟨2, 3⟩]
  exact ⟨h.1, h.2.2 (by decide) (by decide)⟩

end DdrConf
